import Mathlib

/-!
Shallow embedding of the regproxy2 fan-out reverse proxy (main.go):
the registry storage layer (in-memory and file-backed) and the
dispatch/aggregation engine of `RegProxy.proxy`.

Byte strings (Go `[]byte` / `string` contents) are modelled as `List Char`.
File I/O is abstracted to the file's byte content; the HTTP transport is
abstracted to a per-upstream `TransportResult`; channel arrival order is
modelled as an explicit event schedule consumed by the aggregation loop.
-/

abbrev Str := List Char

/-- One splitting pass of `strings.Split` / scanner tokenisation with a
single-character separator: returns the (always nonempty) list of parts of
`s` between occurrences of `c`. -/
def splitCh (c : Char) : Str → List Str
  | [] => [[]]
  | x :: xs =>
    if x = c then [] :: splitCh c xs
    else
      match splitCh c xs with
      | [] => [[x]]
      | l :: ls => (x :: l) :: ls

/-- Whether the byte string ends with the character `c`. -/
def endsWithCh (c : Char) : Str → Bool
  | [] => false
  | x :: rest => if rest.isEmpty then x = c else endsWithCh c rest

/-- Models `dropCR` of bufio's `ScanLines`: strip one trailing carriage
return, if present. -/
def stripCR (l : Str) : Str :=
  if endsWithCh '\r' l then l.dropLast else l

/-- Models `bufio.Scanner` with `ScanLines` over the file content: tokens
are the newline-separated lines, each with a trailing `\r` stripped; a
final newline produces no extra empty token; empty input has no tokens. -/
def scanLines (s : Str) : List Str :=
  if s = [] then []
  else
    let parts := splitCh '\n' s
    (if endsWithCh '\n' s then parts.dropLast else parts).map stripCR

/-- `url.URL` values are represented by the raw string their `String()`
method prints. Finer URL structure (scheme/host decomposition) is not
depended on by any claim. -/
structure URL where
  raw : Str
deriving DecidableEq, Repr

/-- Whether the string contains an ASCII control byte, which is what makes
`net/url.Parse` reject a URL string. -/
def hasCtl (s : Str) : Bool :=
  s.any fun ch => ch.toNat < 32 || ch.toNat == 127

/-- Models `net/url.Parse` at the level the claims depend on: parsing
fails on control characters, and on a URL value produced by `Parse` the
composite `Parse (u.String())` prints back the same string. Finer URL
validation only rejects more raw inputs and no claim depends on it. -/
def urlParse (s : Str) : Except String URL :=
  if hasCtl s then .error "net/url: invalid control character in URL"
  else .ok ⟨s⟩

/-- The registry mapping `map[string]*url.URL`, as an association list
with pairwise-distinct keys (the Go map invariant); list order stands for
the (unspecified) map iteration order. -/
abbrev RegMap := List (Str × URL)

/-- Go map assignment `m[k] = v`: overwrite the entry for `k` in place,
or append a new one. -/
def mapInsert : RegMap → Str → URL → RegMap
  | [], k, v => [(k, v)]
  | p :: rest, k, v =>
    if p.1 = k then (k, v) :: rest else p :: mapInsert rest k v

/-- Go map deletion `delete(m, k)`. -/
def removeKey (m : RegMap) (k : Str) : RegMap :=
  m.filter fun p => decide (p.1 ≠ k)

/-- Go map lookup `m[k]`. -/
def lookupKey : RegMap → Str → Option URL
  | [], _ => none
  | p :: rest, k => if p.1 = k then some p.2 else lookupKey rest k

/-- Number of entries stored under key `k`. -/
def countKey (m : RegMap) (k : Str) : Nat :=
  m.countP fun p => decide (p.1 = k)

/-- The line-by-line loop of `parseMap`: split each line at `=`, require
exactly two parts, parse the URL, and assign into the accumulated map. -/
def parseLines : List Str → RegMap → Except String RegMap
  | [], acc => .ok acc
  | l :: rest, acc =>
    match splitCh '=' l with
    | [a, b] =>
      match urlParse b with
      | .error e => .error e
      | .ok u => parseLines rest (mapInsert acc a u)
    | _ => .error ("corrupt storage, read invalid line [" ++ String.mk l ++ "]")

/-- `parseMap`: scan the file content line by line into a mapping; any
malformed line or unparsable URL aborts the whole load. -/
def parseMap (file : Str) : Except String RegMap :=
  parseLines (scanLines file) []

/-- `RegStorageFile.write`: serialize the mapping one `name=url` line at
a time, each terminated by a newline. -/
def serializeMap (m : RegMap) : Str :=
  m.foldl (fun sb p => sb ++ (p.1 ++ '=' :: p.2.raw) ++ ['\n']) []

/-- In-memory registry backend. -/
structure RegStorageMemory where
  upstreams : RegMap
deriving DecidableEq, Repr

/-- `RegStorageMemory.Put`: map assignment; the returned error is always
nil, modelled as `none`. -/
def RegStorageMemory.Put (st : RegStorageMemory) (k : Str) (v : URL) :
    RegStorageMemory × Option String :=
  (⟨mapInsert st.upstreams k v⟩, none)

/-- `RegStorageMemory.Remove`: map deletion; never errors. -/
def RegStorageMemory.Remove (st : RegStorageMemory) (k : Str) :
    RegStorageMemory × Option String :=
  (⟨removeKey st.upstreams k⟩, none)

/-- `RegStorageMemory.All`: `maps.Clone`; in the pure model the defensive
copy is the value itself. -/
def RegStorageMemory.All (st : RegStorageMemory) : Except String RegMap :=
  .ok st.upstreams

/-- File-backed registry backend; the state is the file's byte content
(disk I/O itself is abstracted as succeeding). -/
structure RegStorageFile where
  content : Str
deriving DecidableEq, Repr

/-- `RegStorageFile.All`: read the file and parse it. -/
def RegStorageFile.All (st : RegStorageFile) : Except String RegMap :=
  parseMap st.content

/-- `RegStorageFile.Put`: read-modify-write — load the whole mapping,
assign, rewrite the whole file. -/
def RegStorageFile.Put (st : RegStorageFile) (k : Str) (v : URL) :
    Except String RegStorageFile :=
  match st.All with
  | .error e => .error e
  | .ok mm => .ok ⟨serializeMap (mapInsert mm k v)⟩

/-- `RegStorageFile.Remove`: read-modify-write with a map deletion. -/
def RegStorageFile.Remove (st : RegStorageFile) (k : Str) :
    Except String RegStorageFile :=
  match st.All with
  | .error e => .error e
  | .ok mm => .ok ⟨serializeMap (removeKey mm k)⟩

/-- `RegProxy.deregister` over the in-memory backend: 400 on a JSON
decode failure, 500 if the store's Remove errors, else 204. The decoded
request is the `name` field. -/
def deregisterMem (decoded : Except String Str) (st : RegStorageMemory) :
    Int × RegStorageMemory :=
  match decoded with
  | .error _ => (400, st)
  | .ok name =>
    match st.Remove name with
    | (st2, none) => (204, st2)
    | (_, some _) => (500, st)

/-- `RegProxy.deregister` over the file backend. -/
def deregisterFile (decoded : Except String Str) (st : RegStorageFile) :
    Int × RegStorageFile :=
  match decoded with
  | .error _ => (400, st)
  | .ok name =>
    match st.Remove name with
    | .error _ => (500, st)
    | .ok st2 => (204, st2)

/-- An upstream HTTP response as seen by the dispatcher. -/
structure Response where
  statusCode : Int
  headers : List (String × String)
  body : String
deriving DecidableEq, Repr

/-- `isSuccess`: status in [200, 400). -/
def isSuccess (r : Response) : Bool :=
  decide (200 ≤ r.statusCode) && decide (r.statusCode < 400)

/-- What `proxy` writes to the inbound `ResponseWriter`: a status code and
a body. -/
structure HttpReply where
  status : Int
  body : String
deriving DecidableEq, Repr

/-- `errResp`: status 500, body the error's message. -/
def errResp (e : String) : HttpReply := ⟨500, e⟩

/-- `badRequest`: status 400, body the given message. -/
def badRequestReply (msg : String) : HttpReply := ⟨400, msg⟩

/-- Models `http.Response.Write` serializing the upstream response
(status line, headers, body) into the outgoing stream. -/
def responseWire (r : Response) : String :=
  "HTTP/1.1 " ++ toString r.statusCode ++ "\r\n"
    ++ r.headers.foldl (fun acc h => acc ++ h.1 ++ ": " ++ h.2 ++ "\r\n") ""
    ++ "\r\n" ++ r.body

/-- The success branch at the end of `proxy`: `WriteHeader` with the
upstream status, then `latestSuccess.Write(resp)`. -/
def passThrough (r : Response) : HttpReply := ⟨r.statusCode, responseWire r⟩

/-- What `p.client.Do(req2)` yields for one upstream: either a transport
error (no HTTP response at all) or a response. -/
inductive TransportResult where
  | err (msg : String)
  | resp (r : Response)
deriving DecidableEq, Repr

/-- What a forward goroutine publishes: a response on the success channel
`rc`, or an error on the failure channel `ec`. -/
inductive Outcome where
  | success (r : Response)
  | failure (msg : String)
deriving DecidableEq, Repr

/-- The wrapped message `fmt.Errorf("unsuccessful status code for request
%s (ID %v): %v", path, requestId, statusCode)`. -/
def nonSuccessMsg (path requestId : String) (code : Int) : String :=
  "unsuccessful status code for request " ++ path ++ " (ID " ++ requestId
    ++ "): " ++ toString code

/-- The classification a forward goroutine applies to the transport's
answer (main.go lines 189–198): a transport error goes to `ec` as-is, a
valid but non-success response goes to `ec` wrapped in the unsuccessful
status message, a success response goes to `rc`. -/
def classifyOutcome (path requestId : String) : TransportResult → Outcome
  | .err msg => .failure msg
  | .resp r =>
    if isSuccess r then .success r
    else .failure (nonSuccessMsg path requestId r.statusCode)

/-- One event observed by the aggregator's `select`: an outcome arriving
on `rc`/`ec`, or the inbound context's done channel firing with the
context's error as reason. -/
inductive Event where
  | outcome (o : Outcome)
  | cancelled (reason : String)
deriving DecidableEq, Repr

/-- Whether the event is a channel outcome rather than cancellation. -/
def Event.isOutcome : Event → Bool
  | .outcome _ => true
  | .cancelled _ => false

/-- The events the N forward goroutines publish, given each upstream's
request id and transport result: the classified outcomes, in spawn
order; the aggregator observes them in some interleaving. -/
def forwardEvents (path : String) (ids : List String)
    (trs : List TransportResult) : List Event :=
  (ids.zip trs).map fun p => .outcome (classifyOutcome path p.1 p.2)

/-- The result of the aggregation loop: a written reply, or the two
behaviours a schedule cannot reach under the theorems' hypotheses —
blocking forever on empty channels, or dereferencing a nil
`latestSuccess`. -/
inductive AggResult where
  | reply (h : HttpReply)
  | blocked
  | crash
deriving DecidableEq, Repr

/-- Status of a written reply, if any. -/
def AggResult.replyStatus : AggResult → Option Int
  | .reply h => some h.status
  | _ => none

/-- The aggregation loop of `proxy` (main.go lines 201–224): iterate once
per upstream, each iteration selecting the next event — a success updates
`latestSuccess`, a failure updates `e`, cancellation immediately replies
with the context error. After all N iterations, any recorded error wins
(500); otherwise the latest success is passed through. -/
def aggLoop : Nat → List Event → Option Response → Option String → AggResult
  | 0, _, latestSuccess, e =>
    match e with
    | some err => .reply (errResp err)
    | none =>
      match latestSuccess with
      | some r => .reply (passThrough r)
      | none => .crash
  | _ + 1, [], _, _ => .blocked
  | n + 1, ev :: rest, latestSuccess, e =>
    match ev with
    | .outcome (.success r) => aggLoop n rest (some r) e
    | .outcome (.failure msg) => aggLoop n rest latestSuccess (some msg)
    | .cancelled reason => .reply (errResp reason)

/-- One outbound forward as built in the goroutine: the cloned request is
retargeted at the upstream's callback, its request-target field cleared,
and its body is a fresh reader over the materialized inbound body. -/
structure ForwardCall where
  name : Str
  callback : URL
  body : String
  requestURI : String
deriving DecidableEq, Repr

/-- A dispatch's observable effect: the reply written to the inbound
caller and the outbound calls handed to the upstream transport. -/
structure DispatchResult where
  reply : AggResult
  calls : List ForwardCall
deriving DecidableEq, Repr

/-- `RegProxy.proxy` (main.go lines 148–225): take a registry snapshot
(`storage.All()`, given here as its result), fail 500 if it errored,
fail 400 if it is empty, materialize the inbound body (given as the
result of `io.ReadAll`), fail 500 if that errored; otherwise launch one
forward per upstream and run the aggregation loop over the schedule of
observed channel events. -/
def proxy (allResult : Except String RegMap) (bodyResult : Except String String)
    (sched : List Event) : DispatchResult :=
  match allResult with
  | .error e => ⟨.reply (errResp e), []⟩
  | .ok upstreams =>
    if upstreams.length < 1 then
      ⟨.reply (badRequestReply "No upstreams registered"), []⟩
    else
      match bodyResult with
      | .error e => ⟨.reply (errResp e), []⟩
      | .ok b =>
        ⟨aggLoop upstreams.length sched none none,
         upstreams.map fun p => ⟨p.1, p.2, b, ""⟩⟩

/-- The error variable `e` after a run of the loop: the most recently
observed failure message, defaulting to the initial value. -/
def latestErrAux : Option String → List Event → Option String
  | e, [] => e
  | _, (.outcome (.failure m)) :: rest => latestErrAux (some m) rest
  | e, _ :: rest => latestErrAux e rest

/-- The `latestSuccess` variable after a run of the loop. -/
def latestSuccAux : Option Response → List Event → Option Response
  | ls, [] => ls
  | _, (.outcome (.success r)) :: rest => latestSuccAux (some r) rest
  | ls, _ :: rest => latestSuccAux ls rest

/-- The serialized line of one registry entry. -/
def linesOf (m : RegMap) : List Str :=
  m.map fun p => p.1 ++ '=' :: p.2.raw

/-- Concatenation of lines, each terminated by a newline (the shape
`RegStorageFile.write` produces). -/
def unlines (ls : List Str) : Str :=
  ls.foldr (fun l acc => l ++ '\n' :: acc) []

/-- Concatenation of lines separated by newlines with no final newline
(the spec's "final newline optional" variant of the persisted layout). -/
def intercalNL : List Str → Str
  | [] => []
  | [l] => l
  | l :: l2 :: rest => l ++ '\n' :: intercalNL (l2 :: rest)

/-- A registry name that serializes unambiguously: it contains neither
the `=` separator nor a newline. -/
abbrev wfName (k : Str) : Prop := '=' ∉ k ∧ '\n' ∉ k

/-- A URL value whose printed string serializes unambiguously and — as
every URL value produced by `net/url.Parse` — contains no control
character. -/
abbrev wfUrl (u : URL) : Prop := '=' ∉ u.raw ∧ '\n' ∉ u.raw ∧ hasCtl u.raw = false

/-- A registry entry that serializes unambiguously. -/
abbrev wfEntry (p : Str × URL) : Prop := wfName p.1 ∧ wfUrl p.2

/-- Whether the transport produced no HTTP response at all. -/
def TransportResult.isErr : TransportResult → Bool
  | .err _ => true
  | .resp _ => false

/-- Whether the transport produced a valid HTTP reply with a non-success
status. -/
def TransportResult.isNonSuccess : TransportResult → Bool
  | .err _ => false
  | .resp r => !isSuccess r

/-- Whether the transport produced a success response. -/
def TransportResult.isSuccessResp : TransportResult → Bool
  | .err _ => false
  | .resp r => isSuccess r

/-- The code after the wait loop (main.go lines 216–224): a recorded
error wins with a 500, else the latest success is written, else the nil
`latestSuccess` would be dereferenced. -/
def finishReply (ls : Option Response) (e : Option String) : AggResult :=
  match e with
  | some err => .reply (errResp err)
  | none =>
    match ls with
    | some r => .reply (passThrough r)
    | none => .crash

theorem latestErrAux_nil (e : Option String) : latestErrAux e [] = e := rfl

theorem latestErrAux_success (e : Option String) (r : Response) (rest : List Event) :
    latestErrAux e (.outcome (.success r) :: rest) = latestErrAux e rest := rfl

theorem latestErrAux_failure (e : Option String) (m : String) (rest : List Event) :
    latestErrAux e (.outcome (.failure m) :: rest) = latestErrAux (some m) rest := rfl

theorem latestSuccAux_success (ls : Option Response) (r : Response) (rest : List Event) :
    latestSuccAux ls (.outcome (.success r) :: rest) = latestSuccAux (some r) rest := rfl

theorem latestSuccAux_failure (ls : Option Response) (m : String) (rest : List Event) :
    latestSuccAux ls (.outcome (.failure m) :: rest) = latestSuccAux ls rest := rfl

theorem aggLoop_zero (sched : List Event) (ls : Option Response) (e : Option String) :
    aggLoop 0 sched ls e = finishReply ls e := by
  cases e <;> cases ls <;> rfl

/-- A schedule of pure channel outcomes of length N is consumed whole:
the loop's result is the post-loop decision applied to the latest
observed success and failure. -/
theorem aggLoop_complete (sched : List Event)
    (h : ∀ ev ∈ sched, ev.isOutcome = true) (ls : Option Response) (e : Option String) :
    aggLoop sched.length sched ls e =
      finishReply (latestSuccAux ls sched) (latestErrAux e sched) := by
  induction sched generalizing ls e with
  | nil => simpa using aggLoop_zero [] ls e
  | cons ev rest ih =>
    cases ev with
    | cancelled reason =>
      have := h _ (List.mem_cons_self _ _)
      simp [Event.isOutcome] at this
    | outcome o =>
      have hrest : ∀ ev ∈ rest, ev.isOutcome = true := fun ev hm =>
        h ev (List.mem_cons_of_mem _ hm)
      cases o with
      | success r =>
        show aggLoop (rest.length + 1) _ _ _ = _
        rw [show aggLoop (rest.length + 1) (Event.outcome (.success r) :: rest) ls e
              = aggLoop rest.length rest (some r) e from rfl,
            latestSuccAux_success, latestErrAux_success]
        exact ih hrest (some r) e
      | failure m =>
        show aggLoop (rest.length + 1) _ _ _ = _
        rw [show aggLoop (rest.length + 1) (Event.outcome (.failure m) :: rest) ls e
              = aggLoop rest.length rest ls (some m) from rfl,
            latestSuccAux_failure, latestErrAux_failure]
        exact ih hrest ls (some m)

theorem latestErrAux_some_isSome (m : String) (sched : List Event) :
    (latestErrAux (some m) sched).isSome := by
  induction sched generalizing m with
  | nil => rfl
  | cons ev rest ih =>
    cases ev with
    | cancelled reason => exact ih m
    | outcome o =>
      cases o with
      | success r => exact ih m
      | failure m2 => exact ih m2

theorem latestErrAux_isSome_of_mem {sched : List Event} {m : String}
    (hm : Event.outcome (.failure m) ∈ sched) (e : Option String) :
    (latestErrAux e sched).isSome := by
  induction sched generalizing e with
  | nil => cases hm
  | cons ev rest ih =>
    cases ev with
    | cancelled reason =>
      rcases List.mem_cons.mp hm with h | h
      · cases h
      · exact ih h e
    | outcome o =>
      cases o with
      | success r =>
        rcases List.mem_cons.mp hm with h | h
        · cases h
        · exact ih h e
      | failure m2 => exact latestErrAux_some_isSome m2 rest

theorem latestErrAux_mem {sched : List Event} {e : Option String} {m2 : String}
    (h : latestErrAux e sched = some m2) :
    Event.outcome (.failure m2) ∈ sched ∨ e = some m2 := by
  induction sched generalizing e with
  | nil => exact .inr h
  | cons ev rest ih =>
    cases ev with
    | cancelled reason =>
      rcases ih h with h2 | h2
      · exact .inl (List.mem_cons_of_mem _ h2)
      · exact .inr h2
    | outcome o =>
      cases o with
      | success r =>
        rcases ih h with h2 | h2
        · exact .inl (List.mem_cons_of_mem _ h2)
        · exact .inr h2
      | failure m3 =>
        rcases ih h with h2 | h2
        · exact .inl (List.mem_cons_of_mem _ h2)
        · cases h2
          exact .inl (List.mem_cons_self _ _)

theorem latestErrAux_no_failure {sched : List Event}
    (h : ∀ m, Event.outcome (.failure m) ∉ sched) (e : Option String) :
    latestErrAux e sched = e := by
  induction sched generalizing e with
  | nil => rfl
  | cons ev rest ih =>
    have hrest : ∀ m, Event.outcome (.failure m) ∉ rest := fun m hm =>
      h m (List.mem_cons_of_mem _ hm)
    cases ev with
    | cancelled reason => exact ih hrest e
    | outcome o =>
      cases o with
      | success r => exact ih hrest e
      | failure m => exact absurd (List.mem_cons_self _ _) (h m)

theorem latestSuccAux_some_isSome (r : Response) (sched : List Event) :
    (latestSuccAux (some r) sched).isSome := by
  induction sched generalizing r with
  | nil => rfl
  | cons ev rest ih =>
    cases ev with
    | cancelled reason => exact ih r
    | outcome o =>
      cases o with
      | success r2 => exact ih r2
      | failure m => exact ih r

theorem latestSuccAux_isSome_of_mem {sched : List Event} {r : Response}
    (hm : Event.outcome (.success r) ∈ sched) (ls : Option Response) :
    (latestSuccAux ls sched).isSome := by
  induction sched generalizing ls with
  | nil => cases hm
  | cons ev rest ih =>
    cases ev with
    | cancelled reason =>
      rcases List.mem_cons.mp hm with h | h
      · cases h
      · exact ih h ls
    | outcome o =>
      cases o with
      | failure m =>
        rcases List.mem_cons.mp hm with h | h
        · cases h
        · exact ih h ls
      | success r2 => exact latestSuccAux_some_isSome r2 rest

theorem latestSuccAux_mem {sched : List Event} {ls : Option Response} {r : Response}
    (h : latestSuccAux ls sched = some r) :
    Event.outcome (.success r) ∈ sched ∨ ls = some r := by
  induction sched generalizing ls with
  | nil => exact .inr h
  | cons ev rest ih =>
    cases ev with
    | cancelled reason =>
      rcases ih h with h2 | h2
      · exact .inl (List.mem_cons_of_mem _ h2)
      · exact .inr h2
    | outcome o =>
      cases o with
      | failure m =>
        rcases ih h with h2 | h2
        · exact .inl (List.mem_cons_of_mem _ h2)
        · exact .inr h2
      | success r2 =>
        rcases ih h with h2 | h2
        · exact .inl (List.mem_cons_of_mem _ h2)
        · cases h2
          exact .inl (List.mem_cons_self _ _)

/-- If the done channel fires while fewer than the loop's remaining
iterations worth of outcomes have arrived, the loop replies with the
cancellation reason at once; whatever follows in the schedule is never
consumed. -/
theorem aggLoop_cancel (pre : List Event) (rest : List Event) (reason : String)
    (n : Nat) (ls : Option Response) (e : Option String)
    (hpre : ∀ ev ∈ pre, ev.isOutcome = true) (hlt : pre.length < n) :
    aggLoop n (pre ++ .cancelled reason :: rest) ls e = .reply (errResp reason) := by
  induction pre generalizing n ls e with
  | nil =>
    cases n with
    | zero => exact absurd hlt (by simp)
    | succ k => rfl
  | cons ev pre2 ih =>
    cases n with
    | zero => exact absurd hlt (by simp)
    | succ k =>
      have hpre2 : ∀ ev2 ∈ pre2, ev2.isOutcome = true := fun ev2 hm =>
        hpre ev2 (List.mem_cons_of_mem _ hm)
      have hlt2 : pre2.length < k := by
        simpa [Nat.succ_lt_succ_iff] using hlt
      cases ev with
      | cancelled r2 =>
        have := hpre _ (List.mem_cons_self _ _)
        simp [Event.isOutcome] at this
      | outcome o =>
        cases o with
        | success r2 => exact ih k (some r2) e hpre2 hlt2
        | failure m => exact ih k ls (some m) hpre2 hlt2

/-- Each element of the right list of a `zip` of equally long lists is
paired with some element of the left list. -/
theorem exists_mem_zip_left {α β : Type} {l1 : List α} {l2 : List β} {b : β}
    (hb : b ∈ l2) (hlen : l1.length = l2.length) : ∃ a, (a, b) ∈ l1.zip l2 := by
  induction l2 generalizing l1 with
  | nil => cases hb
  | cons b2 t2 ih =>
    cases l1 with
    | nil => simp at hlen
    | cons a t1 =>
      rcases List.mem_cons.mp hb with h | h
      · cases h
        exact ⟨a, List.mem_cons_self _ _⟩
      · obtain ⟨a2, ha2⟩ := ih h (by simpa using hlen)
        exact ⟨a2, List.mem_cons_of_mem _ ha2⟩

theorem mem_forwardEvents {path : String} {ids : List String}
    {trs : List TransportResult} {ev : Event}
    (h : ev ∈ forwardEvents path ids trs) :
    ∃ id t, (id, t) ∈ ids.zip trs ∧ ev = .outcome (classifyOutcome path id t) := by
  simp only [forwardEvents, List.mem_map] at h
  obtain ⟨p, hp, rfl⟩ := h
  exact ⟨p.1, p.2, hp, rfl⟩

/-- `proxy` on a non-empty snapshot with a successfully read body: one
forward per upstream is launched and the aggregation loop runs with fuel
N over the event schedule. -/
theorem proxy_run {ups : RegMap} (hne : ups ≠ []) (b : String) (sched : List Event) :
    proxy (.ok ups) (.ok b) sched =
      ⟨aggLoop ups.length sched none none, ups.map fun p => ⟨p.1, p.2, b, ""⟩⟩ := by
  have h1 : ¬ ups.length < 1 := by
    cases ups with
    | nil => exact absurd rfl hne
    | cons p t => simp
  simp [proxy, h1]

theorem sched_length_eq {path : String} {ids : List String}
    {trs : List TransportResult} {sched : List Event} {ups : RegMap}
    (hperm : sched.Perm (forwardEvents path ids trs))
    (hids : ids.length = trs.length) (hlen : trs.length = ups.length) :
    sched.length = ups.length := by
  have h1 := hperm.length_eq
  simp only [forwardEvents, List.length_map, List.length_zip, hids,
    Nat.min_self] at h1
  exact h1.trans hlen

theorem sched_outcomes {path : String} {ids : List String}
    {trs : List TransportResult} {sched : List Event}
    (hperm : sched.Perm (forwardEvents path ids trs)) :
    ∀ ev ∈ sched, ev.isOutcome = true := by
  intro ev hev
  obtain ⟨id, t, _, rfl⟩ := mem_forwardEvents (hperm.mem_iff.mp hev)
  rfl

/-- C2: if the dispatch's snapshot is non-empty and at least one forward
yields a transport error, the dispatch as a whole replies 500, no matter
how many other upstreams succeeded. -/
theorem c2_transport_error_fails_dispatch
    (ups : RegMap) (b path : String) (ids : List String)
    (trs : List TransportResult) (sched : List Event)
    (hne : ups ≠ []) (hlen : trs.length = ups.length)
    (hids : ids.length = trs.length)
    (hperm : sched.Perm (forwardEvents path ids trs))
    (hte : ∃ t ∈ trs, t.isErr = true) :
    ∃ msg, (proxy (.ok ups) (.ok b) sched).reply = .reply ⟨500, msg⟩ := by
  obtain ⟨t, htmem, hterr⟩ := hte
  cases t with
  | resp r => simp [TransportResult.isErr] at hterr
  | err m =>
    obtain ⟨id, hid⟩ := exists_mem_zip_left htmem hids
    have hfwd : Event.outcome (.failure m) ∈ forwardEvents path ids trs := by
      simp only [forwardEvents, List.mem_map]
      exact ⟨(id, .err m), hid, rfl⟩
    have hmem : Event.outcome (.failure m) ∈ sched := hperm.mem_iff.mpr hfwd
    have hsome := latestErrAux_isSome_of_mem hmem none
    obtain ⟨m2, hm2⟩ := Option.isSome_iff_exists.mp hsome
    rw [proxy_run hne]
    show ∃ msg, aggLoop ups.length sched none none = .reply ⟨500, msg⟩
    rw [← sched_length_eq hperm hids hlen,
      aggLoop_complete sched (sched_outcomes hperm) none none, hm2]
    exact ⟨m2, rfl⟩

/-- Witness for C2 at a concrete input: one registered upstream whose
forward fails with a connection error. -/
theorem c2_witness :
    ∃ msg,
      (proxy (.ok [(['A'], ⟨['u']⟩)]) (.ok "")
        (forwardEvents "/" ["id1"] [.err "connection refused"])).reply =
      .reply ⟨500, msg⟩ :=
  c2_transport_error_fails_dispatch [(['A'], ⟨['u']⟩)] "" "/" ["id1"]
    [.err "connection refused"] _ (by decide) rfl rfl (List.Perm.refl _)
    ⟨.err "connection refused", by decide⟩

/-- C1 counterexample: with upstream A always answering 200 and upstream
B always answering 404, a dispatch replies 500 (the wrapped unsuccessful
status message), not B's 404 response passed through. -/
theorem c1_counterexample :
    AggResult.replyStatus
      (proxy (.ok [(['A'], ⟨['u']⟩), (['B'], ⟨['v']⟩)]) (.ok "")
        (forwardEvents "/" ["idA", "idB"]
          [.resp ⟨200, [], "okA"⟩, .resp ⟨404, [], "nope"⟩])).reply = some 500 ∧
    AggResult.replyStatus
      (proxy (.ok [(['A'], ⟨['u']⟩), (['B'], ⟨['v']⟩)]) (.ok "")
        (forwardEvents "/" ["idA", "idB"]
          [.resp ⟨200, [], "okA"⟩, .resp ⟨404, [], "nope"⟩])).reply ≠ some 404 := by
  constructor
  · rfl
  · decide

/-- C1 (amended): when no upstream produced a transport error and at
least one produced a non-success response, the dispatch replies 500 with
the wrapped "unsuccessful status code" message of the most recently
observed non-success outcome — the non-success response is not passed
through. -/
theorem c1_nonsuccess_wrapped_500
    (ups : RegMap) (b path : String) (ids : List String)
    (trs : List TransportResult) (sched : List Event)
    (hne : ups ≠ []) (hlen : trs.length = ups.length)
    (hids : ids.length = trs.length)
    (hperm : sched.Perm (forwardEvents path ids trs))
    (hnoerr : ∀ t ∈ trs, t.isErr = false)
    (hns : ∃ t ∈ trs, t.isNonSuccess = true) :
    ∃ rid code,
      (proxy (.ok ups) (.ok b) sched).reply =
        .reply ⟨500, nonSuccessMsg path rid code⟩ ∧
      ∃ r, TransportResult.resp r ∈ trs ∧ isSuccess r = false ∧
        r.statusCode = code := by
  obtain ⟨t0, ht0mem, ht0ns⟩ := hns
  cases t0 with
  | err m => simp [TransportResult.isNonSuccess] at ht0ns
  | resp r0 =>
    have hr0 : isSuccess r0 = false := by
      simpa [TransportResult.isNonSuccess] using ht0ns
    obtain ⟨id0, hid0⟩ := exists_mem_zip_left ht0mem hids
    have hfwd : Event.outcome (.failure (nonSuccessMsg path id0 r0.statusCode)) ∈
        forwardEvents path ids trs := by
      simp only [forwardEvents, List.mem_map]
      exact ⟨(id0, .resp r0), hid0, by simp [classifyOutcome, hr0]⟩
    have hmem := hperm.mem_iff.mpr hfwd
    have hsome := latestErrAux_isSome_of_mem hmem none
    obtain ⟨m2, hm2⟩ := Option.isSome_iff_exists.mp hsome
    -- the recorded error is the classification of some upstream outcome
    have hm2mem : Event.outcome (.failure m2) ∈ sched := by
      rcases latestErrAux_mem hm2 with h | h
      · exact h
      · cases h
    obtain ⟨id, t, hzip, heq⟩ := mem_forwardEvents (hperm.mem_iff.mp hm2mem)
    have htmem : t ∈ trs := (List.of_mem_zip hzip).2
    cases t with
    | err m3 =>
      have := hnoerr _ htmem
      simp [TransportResult.isErr] at this
    | resp r =>
      by_cases hsr : isSuccess r = true
      · simp [classifyOutcome, hsr] at heq
      · have hsr2 : isSuccess r = false := by
          cases h2 : isSuccess r
          · rfl
          · exact absurd h2 hsr
        have heq2 : m2 = nonSuccessMsg path id r.statusCode := by
          simp [classifyOutcome, hsr2] at heq
          exact heq
        refine ⟨id, r.statusCode, ?_, r, htmem, hsr2, rfl⟩
        rw [proxy_run hne]
        show aggLoop ups.length sched none none = _
        rw [← sched_length_eq hperm hids hlen,
          aggLoop_complete sched (sched_outcomes hperm) none none, hm2, heq2]
        rfl

/-- Witness for C1's amended theorem at the concrete A(200)/B(404)
scenario. -/
theorem c1_witness :
    ∃ rid code,
      (proxy (.ok [(['A'], ⟨['u']⟩), (['B'], ⟨['v']⟩)]) (.ok "")
        (forwardEvents "/" ["idA", "idB"]
          [.resp ⟨200, [], "okA"⟩, .resp ⟨404, [], "nope"⟩])).reply =
        .reply ⟨500, nonSuccessMsg "/" rid code⟩ ∧
      ∃ r, TransportResult.resp r ∈
          [TransportResult.resp ⟨200, [], "okA"⟩, .resp ⟨404, [], "nope"⟩] ∧
        isSuccess r = false ∧ r.statusCode = code :=
  c1_nonsuccess_wrapped_500 [(['A'], ⟨['u']⟩), (['B'], ⟨['v']⟩)] "" "/"
    ["idA", "idB"] [.resp ⟨200, [], "okA"⟩, .resp ⟨404, [], "nope"⟩] _
    (by decide) rfl rfl (List.Perm.refl _) (by decide)
    ⟨.resp ⟨404, [], "nope"⟩, by decide⟩

/-- C4: over a non-empty snapshot whose upstreams all answer with a
success status, the dispatch hands exactly one outbound call per
upstream to the transport — each retargeted at that upstream's callback,
with the request-target cleared and a fresh reader over the one
materialized body — and, after consuming one outcome per upstream,
passes through the most recently observed success response. -/
theorem c4_all_success
    (ups : RegMap) (b path : String) (ids : List String)
    (trs : List TransportResult) (sched : List Event)
    (hne : ups ≠ []) (hlen : trs.length = ups.length)
    (hids : ids.length = trs.length)
    (hperm : sched.Perm (forwardEvents path ids trs))
    (hall : ∀ t ∈ trs, t.isSuccessResp = true) :
    ∃ r, latestSuccAux none sched = some r ∧
      Event.outcome (.success r) ∈ sched ∧ isSuccess r = true ∧
      (proxy (.ok ups) (.ok b) sched).reply = .reply (passThrough r) ∧
      (proxy (.ok ups) (.ok b) sched).calls =
        (ups.map fun p => ⟨p.1, p.2, b, ""⟩) ∧
      (proxy (.ok ups) (.ok b) sched).calls.length = ups.length := by
  have hsucc_of_mem : ∀ ev ∈ sched, ∃ r, ev = Event.outcome (.success r) ∧
      isSuccess r = true := by
    intro ev hev
    obtain ⟨id, t, hzip, rfl⟩ := mem_forwardEvents (hperm.mem_iff.mp hev)
    have htmem : t ∈ trs := (List.of_mem_zip hzip).2
    have := hall t htmem
    cases t with
    | err m => simp [TransportResult.isSuccessResp] at this
    | resp r =>
      have hr : isSuccess r = true := by
        simpa [TransportResult.isSuccessResp] using this
      exact ⟨r, by simp [classifyOutcome, hr], hr⟩
  have hnofail : ∀ m, Event.outcome (.failure m) ∉ sched := by
    intro m hm
    obtain ⟨r, hr, _⟩ := hsucc_of_mem _ hm
    cases hr
  have herr : latestErrAux none sched = none := latestErrAux_no_failure hnofail none
  have hlen2 : sched.length = ups.length := sched_length_eq hperm hids hlen
  have hne2 : sched ≠ [] := by
    intro h
    rw [h] at hlen2
    cases ups with
    | nil => exact hne rfl
    | cons p t => simp at hlen2
  obtain ⟨ev0, rest0, rfl⟩ := List.exists_cons_of_ne_nil hne2
  obtain ⟨r0, hr0, _⟩ := hsucc_of_mem ev0 (List.mem_cons_self _ _)
  cases hr0
  have hsome := latestSuccAux_isSome_of_mem
    (List.mem_cons_self (Event.outcome (.success r0)) rest0) (none : Option Response)
  obtain ⟨r, hr⟩ := Option.isSome_iff_exists.mp hsome
  have hrmem : Event.outcome (.success r) ∈ Event.outcome (.success r0) :: rest0 := by
    rcases latestSuccAux_mem hr with h | h
    · exact h
    · cases h
  obtain ⟨r2, hr2, hr2s⟩ := hsucc_of_mem _ hrmem
  have hrs : isSuccess r = true := by
    cases hr2
    exact hr2s
  refine ⟨r, hr, hrmem, hrs, ?_, ?_, ?_⟩
  · rw [proxy_run hne]
    show aggLoop ups.length _ none none = _
    rw [← hlen2, aggLoop_complete _ (sched_outcomes hperm) none none, herr, hr]
    rfl
  · rw [proxy_run hne]
  · rw [proxy_run hne]
    simp

/-- Witness for C4: two upstreams both answering 200. -/
theorem c4_witness :
    ∃ r, latestSuccAux none
        (forwardEvents "/" ["idA", "idB"]
          [.resp ⟨200, [], "a"⟩, .resp ⟨204, [], "b"⟩]) = some r ∧
      Event.outcome (.success r) ∈
        forwardEvents "/" ["idA", "idB"]
          [.resp ⟨200, [], "a"⟩, .resp ⟨204, [], "b"⟩] ∧
      isSuccess r = true ∧
      (proxy (.ok [(['A'], ⟨['u']⟩), (['B'], ⟨['v']⟩)]) (.ok "body")
        (forwardEvents "/" ["idA", "idB"]
          [.resp ⟨200, [], "a"⟩, .resp ⟨204, [], "b"⟩])).reply =
        .reply (passThrough r) ∧
      (proxy (.ok [(['A'], ⟨['u']⟩), (['B'], ⟨['v']⟩)]) (.ok "body")
        (forwardEvents "/" ["idA", "idB"]
          [.resp ⟨200, [], "a"⟩, .resp ⟨204, [], "b"⟩])).calls =
        ([(['A'], ⟨['u']⟩), (['B'], ⟨['v']⟩)].map fun p => ⟨p.1, p.2, "body", ""⟩) ∧
      (proxy (.ok [(['A'], ⟨['u']⟩), (['B'], ⟨['v']⟩)]) (.ok "body")
        (forwardEvents "/" ["idA", "idB"]
          [.resp ⟨200, [], "a"⟩, .resp ⟨204, [], "b"⟩])).calls.length =
        ([(['A'], ⟨['u']⟩), (['B'], ⟨['v']⟩)] : RegMap).length :=
  c4_all_success [(['A'], ⟨['u']⟩), (['B'], ⟨['v']⟩)] "body" "/"
    ["idA", "idB"] [.resp ⟨200, [], "a"⟩, .resp ⟨204, [], "b"⟩] _
    (by decide) rfl rfl (List.Perm.refl _) (by decide)

/-- C5: if the inbound context's done signal is observed before all N
outcomes have arrived, the dispatch immediately replies 500 with the
cancellation reason; the events after the cancellation (the stragglers'
results) are never consumed, whatever they are. -/
theorem c5_cancellation
    (ups : RegMap) (b : String) (pre rest : List Event) (reason : String)
    (hne : ups ≠ []) (hpre : ∀ ev ∈ pre, ev.isOutcome = true)
    (hlt : pre.length < ups.length) :
    (proxy (.ok ups) (.ok b) (pre ++ .cancelled reason :: rest)).reply =
      .reply ⟨500, reason⟩ := by
  rw [proxy_run hne]
  exact aggLoop_cancel pre rest reason ups.length none none hpre hlt

/-- Witness for C5: one registered upstream, cancellation observed before
its outcome. -/
theorem c5_witness :
    (proxy (.ok [(['A'], ⟨['u']⟩)]) (.ok "")
      ([] ++ .cancelled "context canceled" :: [])).reply =
      .reply ⟨500, "context canceled"⟩ :=
  c5_cancellation [(['A'], ⟨['u']⟩)] "" [] [] "context canceled"
    (by decide) (by decide) (by decide)

/-- C3 counterexample: on an empty snapshot the 400 reply's body is
`No upstreams registered` (capital N), not the claimed lowercase
`no upstreams registered`. -/
theorem c3_counterexample :
    (proxy (.ok []) (.ok "") []).reply =
      .reply ⟨400, "No upstreams registered"⟩ ∧
    (proxy (.ok []) (.ok "") []).reply ≠
      .reply ⟨400, "no upstreams registered"⟩ := by
  constructor
  · rfl
  · decide

/-- C3 (amended): a dispatch whose registry snapshot is empty returns 400
with the body `No upstreams registered` and hands zero outbound calls to
the transport, whatever the inbound body and schedule. -/
theorem c3_empty_snapshot_bad_request
    (bodyResult : Except String String) (sched : List Event) :
    proxy (.ok []) bodyResult sched =
      ⟨.reply (badRequestReply "No upstreams registered"), []⟩ := rfl

/-- C10: over a non-empty snapshot, when reading the inbound body fails,
the dispatch replies 500 with the read error's message and hands zero
outbound calls to the transport (the registry is never written by
`proxy` at all). -/
theorem c10_body_read_error
    (ups : RegMap) (msg : String) (sched : List Event) (hne : ups ≠ []) :
    proxy (.ok ups) (.error msg) sched = ⟨.reply ⟨500, msg⟩, []⟩ := by
  have h1 : ¬ ups.length < 1 := by
    cases ups with
    | nil => exact absurd rfl hne
    | cons p t => simp
  simp [proxy, h1, errResp]

/-- Witness for C10: one registered upstream, body read fails. -/
theorem c10_witness :
    proxy (.ok [(['A'], ⟨['u']⟩)]) (.error "unexpected EOF") [] =
      ⟨.reply ⟨500, "unexpected EOF"⟩, []⟩ :=
  c10_body_read_error [(['A'], ⟨['u']⟩)] "unexpected EOF" [] (by decide)

theorem splitCh_ne_nil (c : Char) (s : Str) : splitCh c s ≠ [] := by
  induction s with
  | nil => simp [splitCh]
  | cons x xs ih =>
    by_cases h : x = c
    · simp [splitCh, h]
    · simp only [splitCh, if_neg h]
      cases hs : splitCh c xs with
      | nil => exact absurd hs ih
      | cons l ls => simp

theorem splitCh_no_sep {c : Char} {s : Str} (h : c ∉ s) : splitCh c s = [s] := by
  induction s with
  | nil => rfl
  | cons x xs ih =>
    have hx : ¬ x = c := by
      intro he
      subst he
      exact h (List.mem_cons_self x xs)
    have hxs : c ∉ xs := fun hm => h (List.mem_cons_of_mem _ hm)
    simp [splitCh, if_neg hx, ih hxs]

theorem splitCh_append_cons {c : Char} {a : Str} (h : c ∉ a) (s : Str) :
    splitCh c (a ++ c :: s) = a :: splitCh c s := by
  induction a with
  | nil => simp [splitCh]
  | cons x xs ih =>
    have hx : ¬ x = c := by
      intro he
      subst he
      exact h (List.mem_cons_self x xs)
    have hxs : c ∉ xs := fun hm => h (List.mem_cons_of_mem _ hm)
    simp [List.cons_append, splitCh, if_neg hx, ih hxs]

theorem splitCh_mem_not_mem {c : Char} {s l : Str} (h : l ∈ splitCh c s) : c ∉ l := by
  induction s generalizing l with
  | nil =>
    simp [splitCh] at h
    subst h
    simp
  | cons x xs ih =>
    by_cases hx : x = c
    · simp only [splitCh, if_pos hx] at h
      rcases List.mem_cons.mp h with rfl | h2
      · simp
      · exact ih h2
    · simp only [splitCh, if_neg hx] at h
      cases hs : splitCh c xs with
      | nil => exact absurd hs (splitCh_ne_nil c xs)
      | cons l2 ls =>
        rw [hs] at h
        rcases List.mem_cons.mp h with rfl | h2
        · intro hc
          rcases List.mem_cons.mp hc with he | hc2
          · exact hx he.symm
          · exact ih (by rw [hs]; exact List.mem_cons_self _ _) hc2
        · exact ih (by rw [hs]; exact List.mem_cons_of_mem _ h2)

theorem splitCh_mem_subset {c : Char} {s l : Str} (h : l ∈ splitCh c s) : l ⊆ s := by
  induction s generalizing l with
  | nil =>
    simp [splitCh] at h
    subst h
    simp
  | cons x xs ih =>
    by_cases hx : x = c
    · simp only [splitCh, if_pos hx] at h
      rcases List.mem_cons.mp h with rfl | h2
      · exact List.nil_subset _
      · exact (ih h2).trans (List.subset_cons_self _ _)
    · simp only [splitCh, if_neg hx] at h
      cases hs : splitCh c xs with
      | nil => exact absurd hs (splitCh_ne_nil c xs)
      | cons l2 ls =>
        rw [hs] at h
        rcases List.mem_cons.mp h with rfl | h2
        · exact List.cons_subset_cons x (ih (by rw [hs]; exact List.mem_cons_self _ _))
        · exact (ih (by rw [hs]; exact List.mem_cons_of_mem _ h2)).trans
            (List.subset_cons_self _ _)

theorem endsWithCh_append {c : Char} (a : Str) {b : Str} (hb : b ≠ []) :
    endsWithCh c (a ++ b) = endsWithCh c b := by
  induction a with
  | nil => rfl
  | cons x xs ih =>
    cases hxb : xs ++ b with
    | nil => exact absurd (List.append_eq_nil.mp hxb).2 hb
    | cons y t =>
      calc endsWithCh c ((x :: xs) ++ b) = endsWithCh c (x :: y :: t) := by
            rw [List.cons_append, hxb]
        _ = endsWithCh c (y :: t) := rfl
        _ = endsWithCh c (xs ++ b) := by rw [hxb]
        _ = endsWithCh c b := ih

theorem endsWithCh_not_mem {c : Char} {l : Str} (h : c ∉ l) : endsWithCh c l = false := by
  induction l with
  | nil => rfl
  | cons x xs ih =>
    cases xs with
    | nil =>
      have hx : ¬ x = c := by
        intro he
        subst he
        exact h (List.mem_cons_self _ _)
      simp [endsWithCh, hx]
    | cons y t =>
      have he : endsWithCh c (x :: y :: t) = endsWithCh c (y :: t) := rfl
      rw [he]
      exact ih fun hm => h (List.mem_cons_of_mem _ hm)

theorem unlines_cons (l : Str) (ls : List Str) :
    unlines (l :: ls) = l ++ '\n' :: unlines ls := rfl

theorem unlines_ne_nil {ls : List Str} (h : ls ≠ []) : unlines ls ≠ [] := by
  cases ls with
  | nil => exact absurd rfl h
  | cons l t =>
    rw [unlines_cons]
    cases l <;> simp

theorem endsWithCh_unlines {ls : List Str} (h : ls ≠ []) :
    endsWithCh '\n' (unlines ls) = true := by
  induction ls with
  | nil => exact absurd rfl h
  | cons l t ih =>
    rw [unlines_cons]
    cases t with
    | nil =>
      rw [endsWithCh_append l (by simp)]
      rfl
    | cons l2 t2 =>
      rw [endsWithCh_append l (by simp)]
      cases hu : unlines (l2 :: t2) with
      | nil => exact absurd hu (unlines_ne_nil (by simp))
      | cons y t3 =>
        have he2 : endsWithCh '\n' ('\n' :: y :: t3) = endsWithCh '\n' (y :: t3) := by
          simp [endsWithCh]
        rw [he2, ← hu]
        exact ih (by simp)

theorem splitCh_unlines {ls : List Str} (h : ∀ l ∈ ls, '\n' ∉ l) :
    splitCh '\n' (unlines ls) = ls ++ [[]] := by
  induction ls with
  | nil => rfl
  | cons l t ih =>
    rw [unlines_cons, splitCh_append_cons (h l (List.mem_cons_self _ _)),
      ih fun l2 hm => h l2 (List.mem_cons_of_mem _ hm)]
    rfl

theorem stripCR_no_cr {l : Str} (h : endsWithCh '\r' l = false) : stripCR l = l := by
  simp [stripCR, h]

/-- The scanner inverts `unlines` on newline-free lines with no trailing
carriage return. -/
theorem scanLines_unlines {ls : List Str}
    (h : ∀ l ∈ ls, '\n' ∉ l ∧ endsWithCh '\r' l = false) :
    scanLines (unlines ls) = ls := by
  cases hls : ls with
  | nil => rfl
  | cons l0 t0 =>
    rw [← hls]
    have hne : unlines ls ≠ [] := unlines_ne_nil (by rw [hls]; simp)
    have hnl : endsWithCh '\n' (unlines ls) = true :=
      endsWithCh_unlines (by rw [hls]; simp)
    simp only [scanLines, if_neg hne, hnl, if_pos]
    rw [splitCh_unlines fun l hm => (h l hm).1, List.dropLast_concat]
    have hid : ∀ l ∈ ls, stripCR l = l := fun l hm => stripCR_no_cr (h l hm).2
    rw [List.map_congr_left hid]
    exact List.map_id ls

theorem intercalNL_cons2 (l l2 : Str) (t : List Str) :
    intercalNL (l :: l2 :: t) = l ++ '\n' :: intercalNL (l2 :: t) := rfl

theorem intercalNL_ne_nil {ls : List Str} (hne : ls ≠ [])
    (h : ∀ l ∈ ls, l ≠ []) : intercalNL ls ≠ [] := by
  cases ls with
  | nil => exact absurd rfl hne
  | cons l t =>
    cases t with
    | nil => exact h l (List.mem_cons_self _ _)
    | cons l2 t2 =>
      rw [intercalNL_cons2]
      cases l <;> simp

theorem endsWithCh_intercalNL {ls : List Str}
    (h : ∀ l ∈ ls, '\n' ∉ l ∧ l ≠ []) :
    endsWithCh '\n' (intercalNL ls) = false := by
  induction ls with
  | nil => rfl
  | cons l t ih =>
    cases t with
    | nil => exact endsWithCh_not_mem (h l (List.mem_cons_self _ _)).1
    | cons l2 t2 =>
      rw [intercalNL_cons2]
      have hrest : ∀ l3 ∈ l2 :: t2, '\n' ∉ l3 ∧ l3 ≠ [] := fun l3 hm =>
        h l3 (List.mem_cons_of_mem _ hm)
      have hne2 : intercalNL (l2 :: t2) ≠ [] :=
        intercalNL_ne_nil (by simp) fun l3 hm => (hrest l3 hm).2
      rw [endsWithCh_append l (by simp)]
      cases hu : intercalNL (l2 :: t2) with
      | nil => exact absurd hu hne2
      | cons y t3 =>
        have he2 : endsWithCh '\n' ('\n' :: y :: t3) = endsWithCh '\n' (y :: t3) := by
          simp [endsWithCh]
        rw [he2, ← hu]
        exact ih hrest

theorem splitCh_intercalNL {ls : List Str} (hne : ls ≠ [])
    (h : ∀ l ∈ ls, '\n' ∉ l) :
    splitCh '\n' (intercalNL ls) = ls := by
  induction ls with
  | nil => exact absurd rfl hne
  | cons l t ih =>
    cases t with
    | nil => exact splitCh_no_sep (h l (List.mem_cons_self _ _))
    | cons l2 t2 =>
      rw [intercalNL_cons2,
        splitCh_append_cons (h l (List.mem_cons_self _ _)),
        ih (by simp) fun l3 hm => h l3 (List.mem_cons_of_mem _ hm)]

/-- The scanner also inverts the no-final-newline serialization of
nonempty newline-free lines. -/
theorem scanLines_intercalNL {ls : List Str} (hne : ls ≠ [])
    (h : ∀ l ∈ ls, '\n' ∉ l ∧ endsWithCh '\r' l = false ∧ l ≠ []) :
    scanLines (intercalNL ls) = ls := by
  have hne2 : intercalNL ls ≠ [] := intercalNL_ne_nil hne fun l hm => (h l hm).2.2
  have hnl : endsWithCh '\n' (intercalNL ls) = false :=
    endsWithCh_intercalNL fun l hm => ⟨(h l hm).1, (h l hm).2.2⟩
  simp only [scanLines, if_neg hne2, hnl, Bool.false_eq_true, if_neg,
    ite_false]
  rw [splitCh_intercalNL hne fun l hm => (h l hm).1]
  have hid : ∀ l ∈ ls, stripCR l = l := fun l hm => stripCR_no_cr (h l hm).2.1
  rw [List.map_congr_left hid]
  exact List.map_id ls

theorem unlines_dropLast (ls : List Str) :
    (unlines ls).dropLast = intercalNL ls := by
  induction ls with
  | nil => rfl
  | cons l t ih =>
    cases t with
    | nil =>
      show (l ++ ['\n']).dropLast = l
      exact List.dropLast_concat
    | cons l2 t2 =>
      have hu : unlines (l2 :: t2) ≠ [] := unlines_ne_nil (by simp)
      rw [unlines_cons, intercalNL_cons2, ← ih]
      rw [show l ++ '\n' :: unlines (l2 :: t2) =
        l ++ ('\n' :: unlines (l2 :: t2)) from rfl]
      rw [List.dropLast_append_of_ne_nil l (by simp)]
      rw [show ('\n' :: unlines (l2 :: t2)) = ['\n'] ++ unlines (l2 :: t2) from rfl]
      rw [List.dropLast_append_of_ne_nil ['\n'] hu]
      rfl

theorem serializeMap_aux (m : RegMap) (init : Str) :
    m.foldl (fun sb p => sb ++ (p.1 ++ '=' :: p.2.raw) ++ ['\n']) init =
      init ++ unlines (linesOf m) := by
  induction m generalizing init with
  | nil => simp [unlines, linesOf]
  | cons p rest ih =>
    show List.foldl _ (init ++ (p.1 ++ '=' :: p.2.raw) ++ ['\n']) rest = _
    rw [ih,
      show linesOf (p :: rest) = (p.1 ++ '=' :: p.2.raw) :: linesOf rest from rfl,
      unlines_cons]
    simp [List.append_assoc]

theorem serializeMap_eq_unlines (m : RegMap) :
    serializeMap m = unlines (linesOf m) := by
  have h := serializeMap_aux m []
  simpa [serializeMap] using h

theorem hasCtl_not_mem {s : Str} {c : Char} (h : hasCtl s = false)
    (hc : c.toNat < 32) : c ∉ s := by
  intro hm
  have h2 : hasCtl s = true := by
    simp only [hasCtl, List.any_eq_true]
    exact ⟨c, hm, by simp [hc]⟩
  rw [h2] at h
  cases h

theorem line_no_newline {p : Str × URL} (hp : wfEntry p) :
    '\n' ∉ p.1 ++ '=' :: p.2.raw := by
  intro hm
  rcases List.mem_append.mp hm with h | h
  · exact hp.1.2 h
  · rcases List.mem_cons.mp h with h2 | h2
    · cases h2
    · exact hp.2.2.1 h2

theorem line_ne_nil (p : Str × URL) : p.1 ++ '=' :: p.2.raw ≠ [] := by
  cases hp : p.1 <;> simp

theorem line_no_trailing_cr {p : Str × URL} (hp : wfEntry p) :
    endsWithCh '\r' (p.1 ++ '=' :: p.2.raw) = false := by
  rw [endsWithCh_append p.1 (by simp)]
  cases hv : p.2.raw with
  | nil => rfl
  | cons y t =>
    have he : endsWithCh '\r' ('=' :: y :: t) = endsWithCh '\r' (y :: t) := by
      simp [endsWithCh]
    rw [he, ← hv]
    exact endsWithCh_not_mem (hasCtl_not_mem hp.2.2.2 (by decide))

theorem mem_mapInsert {m : RegMap} {k : Str} {v : URL} {p : Str × URL}
    (h : p ∈ mapInsert m k v) : p = (k, v) ∨ p ∈ m := by
  induction m with
  | nil =>
    simp [mapInsert] at h
    exact .inl h
  | cons q rest ih =>
    by_cases hq : q.1 = k
    · simp only [mapInsert, if_pos hq] at h
      rcases List.mem_cons.mp h with h2 | h2
      · exact .inl h2
      · exact .inr (List.mem_cons_of_mem _ h2)
    · simp only [mapInsert, if_neg hq] at h
      rcases List.mem_cons.mp h with h2 | h2
      · exact .inr (h2 ▸ List.mem_cons_self _ _)
      · rcases ih h2 with h3 | h3
        · exact .inl h3
        · exact .inr (List.mem_cons_of_mem _ h3)

theorem keys_mapInsert_sub {m : RegMap} {k : Str} {v : URL} {a : Str}
    (h : a ∈ (mapInsert m k v).map Prod.fst) :
    a = k ∨ a ∈ m.map Prod.fst := by
  obtain ⟨p, hp, rfl⟩ := List.mem_map.mp h
  rcases mem_mapInsert hp with h2 | h2
  · exact .inl (by rw [h2])
  · exact .inr (List.mem_map_of_mem _ h2)

theorem mapInsert_nodup {m : RegMap} (k : Str) (v : URL)
    (h : (m.map Prod.fst).Nodup) :
    ((mapInsert m k v).map Prod.fst).Nodup := by
  induction m with
  | nil => simp [mapInsert]
  | cons p rest ih =>
    rw [List.map_cons, List.nodup_cons] at h
    by_cases hq : p.1 = k
    · simp only [mapInsert, if_pos hq, List.map_cons, List.nodup_cons]
      exact ⟨by rw [← hq]; exact h.1, h.2⟩
    · simp only [mapInsert, if_neg hq, List.map_cons, List.nodup_cons]
      refine ⟨?_, ih h.2⟩
      intro hmem
      rcases keys_mapInsert_sub hmem with h2 | h2
      · exact hq h2
      · exact h.1 h2

theorem lookupKey_mapInsert (m : RegMap) (k : Str) (v : URL) :
    lookupKey (mapInsert m k v) k = some v := by
  induction m with
  | nil => simp [mapInsert, lookupKey]
  | cons p rest ih =>
    by_cases hq : p.1 = k
    · simp [mapInsert, if_pos hq, lookupKey]
    · simp only [mapInsert, if_neg hq, lookupKey, ih]

theorem countKey_eq_zero {m : RegMap} {k : Str}
    (h : k ∉ m.map Prod.fst) : countKey m k = 0 := by
  rw [countKey, List.countP_eq_zero]
  intro p hp
  simp only [decide_eq_true_eq]
  intro he
  exact h (he ▸ List.mem_map_of_mem _ hp)

theorem countKey_mapInsert (m : RegMap) (k : Str) (v : URL)
    (h : (m.map Prod.fst).Nodup) :
    countKey (mapInsert m k v) k = 1 := by
  induction m with
  | nil => simp [mapInsert, countKey, List.countP_cons]
  | cons p rest ih =>
    rw [List.map_cons, List.nodup_cons] at h
    by_cases hq : p.1 = k
    · simp only [mapInsert, if_pos hq, countKey, List.countP_cons]
      have hz : countKey rest k = 0 := countKey_eq_zero (by rw [← hq]; exact h.1)
      rw [countKey] at hz
      simp [hz]
    · simp only [mapInsert, if_neg hq, countKey, List.countP_cons]
      have := ih h.2
      rw [countKey] at this
      simp [this, hq]

theorem mapInsert_append {acc : RegMap} {k : Str} (v : URL)
    (h : ∀ p ∈ acc, p.1 ≠ k) : mapInsert acc k v = acc ++ [(k, v)] := by
  induction acc with
  | nil => rfl
  | cons p rest ih =>
    have hp : ¬ p.1 = k := h p (List.mem_cons_self _ _)
    simp only [mapInsert, if_neg hp, List.cons_append]
    rw [ih fun q hq => h q (List.mem_cons_of_mem _ hq)]

theorem removeKey_not_mem {m : RegMap} {k : Str}
    (h : k ∉ m.map Prod.fst) : removeKey m k = m := by
  rw [removeKey, List.filter_eq_self]
  intro p hp
  simp only [decide_eq_true_eq]
  intro he
  exact h (he ▸ List.mem_map_of_mem _ hp)

theorem parseLines_linesOf : ∀ (m acc : RegMap),
    (∀ p ∈ m, wfEntry p) →
    ((m.map Prod.fst).Nodup) →
    (∀ p ∈ m, ∀ q ∈ acc, q.1 ≠ p.1) →
    parseLines (linesOf m) acc = .ok (acc ++ m) := by
  intro m
  induction m with
  | nil =>
    intro acc _ _ _
    simp [linesOf, parseLines]
  | cons p rest ih =>
    intro acc hwf hnd hdisj
    obtain ⟨k, u⟩ := p
    obtain ⟨v⟩ := u
    have hp : wfEntry (k, URL.mk v) := hwf _ (List.mem_cons_self _ _)
    have hsplit : splitCh '=' (k ++ '=' :: v) = [k, v] := by
      rw [splitCh_append_cons hp.1.1, splitCh_no_sep hp.2.1]
    have hurl : urlParse v = .ok ⟨v⟩ := by
      simp [urlParse, hp.2.2.2]
    show parseLines ((k ++ '=' :: v) :: linesOf rest) acc = _
    simp only [parseLines, hsplit, hurl]
    rw [mapInsert_append _ fun q hq => hdisj _ (List.mem_cons_self _ _) q hq]
    rw [List.map_cons, List.nodup_cons] at hnd
    have hih := ih (acc ++ [(k, URL.mk v)])
      (fun q hq => hwf q (List.mem_cons_of_mem _ hq)) hnd.2 ?_
    · rw [hih]
      simp
    · intro p2 hp2 q hq
      rcases List.mem_append.mp hq with h2 | h2
      · exact hdisj p2 (List.mem_cons_of_mem _ hp2) q h2
      · have : q = (k, URL.mk v) := by simpa using h2
        subst this
        intro he
        exact hnd.1 (he ▸ List.mem_map_of_mem _ hp2)

/-- C8's forward direction: serializing a well-formed mapping and
re-parsing it recovers exactly the mapping. -/
theorem parseMap_serializeMap (m : RegMap)
    (hnd : (m.map Prod.fst).Nodup) (hwf : ∀ p ∈ m, wfEntry p) :
    parseMap (serializeMap m) = .ok m := by
  rw [parseMap, serializeMap_eq_unlines]
  have hlines : ∀ l ∈ linesOf m, '\n' ∉ l ∧ endsWithCh '\r' l = false := by
    intro l hl
    obtain ⟨p, hp, rfl⟩ := List.mem_map.mp hl
    exact ⟨line_no_newline (hwf p hp), line_no_trailing_cr (hwf p hp)⟩
  rw [scanLines_unlines hlines]
  have h := parseLines_linesOf m [] hwf hnd (by simp)
  simpa using h

theorem parseMap_serializeMap_dropLast (m : RegMap)
    (hnd : (m.map Prod.fst).Nodup) (hwf : ∀ p ∈ m, wfEntry p) :
    parseMap ((serializeMap m).dropLast) = .ok m := by
  cases m with
  | nil => rfl
  | cons p rest =>
    rw [parseMap, serializeMap_eq_unlines, unlines_dropLast]
    have hlines : ∀ l ∈ linesOf (p :: rest),
        '\n' ∉ l ∧ endsWithCh '\r' l = false ∧ l ≠ [] := by
      intro l hl
      obtain ⟨q, hq, rfl⟩ := List.mem_map.mp hl
      exact ⟨line_no_newline (hwf q hq), line_no_trailing_cr (hwf q hq),
        line_ne_nil q⟩
    rw [scanLines_intercalNL (by simp [linesOf]) hlines]
    have h := parseLines_linesOf (p :: rest) [] hwf hnd (by simp)
    simpa using h

theorem scanLines_no_newline {s l : Str} (h : l ∈ scanLines s) : '\n' ∉ l := by
  by_cases hs : s = []
  · subst hs
    simp [scanLines] at h
  · simp only [scanLines, if_neg hs] at h
    obtain ⟨l2, hl2, rfl⟩ := List.mem_map.mp h
    have hl2b : l2 ∈ splitCh '\n' s := by
      cases hb : endsWithCh '\n' s with
      | true =>
        rw [hb] at hl2
        simp only [if_pos] at hl2
        exact List.mem_of_mem_dropLast hl2
      | false =>
        rw [hb] at hl2
        simpa using hl2
    have hnm : '\n' ∉ l2 := splitCh_mem_not_mem hl2b
    by_cases hcr : endsWithCh '\r' l2 = true
    · rw [stripCR, if_pos hcr]
      intro hm
      exact hnm (List.mem_of_mem_dropLast hm)
    · rw [stripCR, if_neg hcr]
      exact hnm

theorem parseLines_wf : ∀ (ls : List Str) (acc m : RegMap),
    parseLines ls acc = .ok m →
    (∀ l ∈ ls, '\n' ∉ l) →
    (∀ p ∈ acc, wfEntry p) →
    ((acc.map Prod.fst).Nodup) →
    (∀ p ∈ m, wfEntry p) ∧ ((m.map Prod.fst).Nodup) := by
  intro ls
  induction ls with
  | nil =>
    intro acc m hok hls hacc hnd
    simp only [parseLines, Except.ok.injEq] at hok
    subst hok
    exact ⟨hacc, hnd⟩
  | cons l rest ih =>
    intro acc m hok hls hacc hnd
    cases hsp : splitCh '=' l with
    | nil => simp [parseLines, hsp] at hok
    | cons a tl =>
      cases tl with
      | nil => simp [parseLines, hsp] at hok
      | cons b tl2 =>
        cases tl2 with
        | cons c tl3 => simp [parseLines, hsp] at hok
        | nil =>
          cases hctl : hasCtl b with
          | true => simp [parseLines, hsp, urlParse, hctl] at hok
          | false =>
            have hok2 : parseLines rest (mapInsert acc a ⟨b⟩) = .ok m := by
              simpa [parseLines, hsp, urlParse, hctl] using hok
            have ha_mem : a ∈ splitCh '=' l := by
              rw [hsp]
              exact List.mem_cons_self _ _
            have hb_mem : b ∈ splitCh '=' l := by
              rw [hsp]
              exact List.mem_cons_of_mem _ (List.mem_cons_self _ _)
            have hlnl : '\n' ∉ l := hls l (List.mem_cons_self _ _)
            have hentry : wfEntry (a, URL.mk b) :=
              ⟨⟨splitCh_mem_not_mem ha_mem,
                  fun hm => hlnl (splitCh_mem_subset ha_mem hm)⟩,
                splitCh_mem_not_mem hb_mem,
                fun hm => hlnl (splitCh_mem_subset hb_mem hm), hctl⟩
            refine ih (mapInsert acc a ⟨b⟩) m hok2
              (fun l2 hm => hls l2 (List.mem_cons_of_mem _ hm)) ?_
              (mapInsert_nodup a ⟨b⟩ hnd)
            intro p hp
            rcases mem_mapInsert hp with rfl | hp2
            · exact hentry
            · exact hacc p hp2

/-- Every mapping the parser accepts is well formed: names and URL
strings are free of the separator and newline, URL strings are
control-free, and keys are pairwise distinct. -/
theorem wf_of_parseMap {s : Str} {m : RegMap} (h : parseMap s = .ok m) :
    (∀ p ∈ m, wfEntry p) ∧ ((m.map Prod.fst).Nodup) :=
  parseLines_wf (scanLines s) [] m h
    (fun _ hl => scanLines_no_newline hl) (by simp) (by simp)

theorem parseLines_error_of_bad : ∀ (ls : List Str) (acc : RegMap),
    (∃ l ∈ ls, (splitCh '=' l).length ≠ 2) →
    ∃ msg, parseLines ls acc = .error msg := by
  intro ls
  induction ls with
  | nil =>
    intro acc hbad
    obtain ⟨l, hl, _⟩ := hbad
    cases hl
  | cons l rest ih =>
    intro acc hbad
    cases hsp : splitCh '=' l with
    | nil =>
      exact ⟨"corrupt storage, read invalid line [" ++ String.mk l ++ "]",
        by simp [parseLines, hsp]⟩
    | cons a tl =>
      cases tl with
      | nil =>
        exact ⟨"corrupt storage, read invalid line [" ++ String.mk l ++ "]",
          by simp [parseLines, hsp]⟩
      | cons b tl2 =>
        cases tl2 with
        | cons c tl3 =>
          exact ⟨"corrupt storage, read invalid line [" ++ String.mk l ++ "]",
            by simp [parseLines, hsp]⟩
        | nil =>
          have hrest : ∃ l2 ∈ rest, (splitCh '=' l2).length ≠ 2 := by
            obtain ⟨l2, hl2, hb2⟩ := hbad
            rcases List.mem_cons.mp hl2 with rfl | h2
            · rw [hsp] at hb2
              simp at hb2
            · exact ⟨l2, h2, hb2⟩
          cases hctl : hasCtl b with
          | true =>
            exact ⟨"net/url: invalid control character in URL",
              by simp [parseLines, hsp, urlParse, hctl]⟩
          | false =>
            obtain ⟨msg, hmsg⟩ := ih (mapInsert acc a ⟨b⟩) hrest
            exact ⟨msg, by simp [parseLines, hsp, urlParse, hctl, hmsg]⟩

/-- C6: a file content containing any line that does not split at `=`
into exactly two parts fails the entire load with an error — no partial
mapping of the well-formed lines is ever produced. -/
theorem c6_parse_all_or_nothing (file : Str)
    (hml : ∃ l ∈ scanLines file, (splitCh '=' l).length ≠ 2) :
    ∃ msg, parseMap file = .error msg :=
  parseLines_error_of_bad (scanLines file) [] hml

/-- Witness for C6: the file `a=b` / `bogus` fails to load although its
first line is well formed. -/
theorem c6_witness :
    ∃ msg, parseMap ['a', '=', 'b', '\n', 'x', '\n'] = .error msg :=
  c6_parse_all_or_nothing ['a', '=', 'b', '\n', 'x', '\n'] (by decide)

/-- C7: putting `u1` then `u2` under the same name leaves exactly one
entry for that name, mapped to `u2` — in the in-memory mapping and in
the mapping re-loaded from the rewritten file alike. -/
theorem c7_put_put_last_wins
    (mem : RegStorageMemory) (stf : RegStorageFile) (m : RegMap)
    (k : Str) (u1 u2 : URL)
    (hmem : (mem.upstreams.map Prod.fst).Nodup)
    (hparse : stf.All = .ok m)
    (hk : wfName k) (hu1 : wfUrl u1) (hu2 : wfUrl u2) :
    lookupKey ((mem.Put k u1).1.Put k u2).1.upstreams k = some u2 ∧
    countKey ((mem.Put k u1).1.Put k u2).1.upstreams k = 1 ∧
    ∃ st1 st2 m2, stf.Put k u1 = .ok st1 ∧ st1.Put k u2 = .ok st2 ∧
      st2.All = .ok m2 ∧ lookupKey m2 k = some u2 ∧ countKey m2 k = 1 := by
  obtain ⟨hwf, hnd⟩ := wf_of_parseMap hparse
  have hm1wf : ∀ p ∈ mapInsert m k u1, wfEntry p := by
    intro p hp
    rcases mem_mapInsert hp with rfl | hp2
    · exact ⟨hk, hu1⟩
    · exact hwf p hp2
  have hm1nd := mapInsert_nodup k u1 hnd
  have hm2wf : ∀ p ∈ mapInsert (mapInsert m k u1) k u2, wfEntry p := by
    intro p hp
    rcases mem_mapInsert hp with rfl | hp2
    · exact ⟨hk, hu2⟩
    · exact hm1wf p hp2
  have hm2nd := mapInsert_nodup k u2 hm1nd
  refine ⟨lookupKey_mapInsert _ _ _,
    countKey_mapInsert _ _ _ (mapInsert_nodup k u1 hmem),
    ⟨serializeMap (mapInsert m k u1)⟩,
    ⟨serializeMap (mapInsert (mapInsert m k u1) k u2)⟩,
    mapInsert (mapInsert m k u1) k u2, ?_, ?_, ?_,
    lookupKey_mapInsert _ _ _, countKey_mapInsert _ _ _ hm1nd⟩
  · simp only [RegStorageFile.Put, hparse]
  · have h1 : RegStorageFile.All ⟨serializeMap (mapInsert m k u1)⟩ =
        .ok (mapInsert m k u1) := parseMap_serializeMap _ hm1nd hm1wf
    simp only [RegStorageFile.Put, h1]
  · exact parseMap_serializeMap _ hm2nd hm2wf

/-- Witness for C7: an empty in-memory store and an empty file store,
registering name `A` first to one URL then to another. -/
theorem c7_witness :
    lookupKey ((RegStorageMemory.Put ⟨[]⟩ ['A'] ⟨['h']⟩).1.Put
      ['A'] ⟨['g']⟩).1.upstreams ['A'] = some ⟨['g']⟩ ∧
    countKey ((RegStorageMemory.Put ⟨[]⟩ ['A'] ⟨['h']⟩).1.Put
      ['A'] ⟨['g']⟩).1.upstreams ['A'] = 1 ∧
    ∃ st1 st2 m2, RegStorageFile.Put ⟨[]⟩ ['A'] ⟨['h']⟩ = .ok st1 ∧
      st1.Put ['A'] ⟨['g']⟩ = .ok st2 ∧ st2.All = .ok m2 ∧
      lookupKey m2 ['A'] = some ⟨['g']⟩ ∧ countKey m2 ['A'] = 1 :=
  c7_put_put_last_wins ⟨[]⟩ ⟨[]⟩ [] ['A'] ⟨['h']⟩ ⟨['g']⟩
    (by simp) rfl (by decide) (by decide) (by decide)

/-- C8: serializing any well-formed mapping (pairwise-distinct names,
no `=` or newline in names or URL strings, URL strings parseable) and
loading the bytes back yields exactly the original mapping — with or
without the final newline; entries therefore survive a restart that
re-loads the same file. -/
theorem c8_serialize_parse_roundtrip (m : RegMap)
    (hnd : (m.map Prod.fst).Nodup) (hwf : ∀ p ∈ m, wfEntry p) :
    parseMap (serializeMap m) = .ok m ∧
    parseMap ((serializeMap m).dropLast) = .ok m :=
  ⟨parseMap_serializeMap m hnd hwf, parseMap_serializeMap_dropLast m hnd hwf⟩

/-- Witness for C8 on a two-entry mapping. -/
theorem c8_witness :
    parseMap (serializeMap [(['a'], ⟨['x']⟩), (['b'], ⟨['y']⟩)]) =
      .ok [(['a'], ⟨['x']⟩), (['b'], ⟨['y']⟩)] ∧
    parseMap ((serializeMap [(['a'], ⟨['x']⟩), (['b'], ⟨['y']⟩)]).dropLast) =
      .ok [(['a'], ⟨['x']⟩), (['b'], ⟨['y']⟩)] :=
  c8_serialize_parse_roundtrip [(['a'], ⟨['x']⟩), (['b'], ⟨['y']⟩)]
    (by decide) (by decide)

/-- C9: removing an absent name succeeds without error on both backends,
`deregister` answers 204, and the mapping observable through `All` is
unchanged. -/
theorem c9_remove_idempotent
    (mem : RegStorageMemory) (stf : RegStorageFile) (m : RegMap) (k : Str)
    (hparse : stf.All = .ok m)
    (habs1 : k ∉ mem.upstreams.map Prod.fst)
    (habs2 : k ∉ m.map Prod.fst) :
    (mem.Remove k).2 = none ∧
    (mem.Remove k).1 = mem ∧
    deregisterMem (.ok k) mem = (204, mem) ∧
    ∃ st2, stf.Remove k = .ok st2 ∧ st2.All = .ok m ∧
      deregisterFile (.ok k) stf = (204, st2) := by
  obtain ⟨hwf, hnd⟩ := wf_of_parseMap hparse
  have hm : (mem.Remove k).1 = mem := by
    show (⟨removeKey mem.upstreams k⟩ : RegStorageMemory) = mem
    rw [removeKey_not_mem habs1]
  have hrem : RegStorageFile.Remove stf k = .ok ⟨serializeMap m⟩ := by
    simp only [RegStorageFile.Remove, hparse, removeKey_not_mem habs2]
  refine ⟨rfl, hm, ?_, ⟨serializeMap m⟩, hrem,
    parseMap_serializeMap m hnd hwf, ?_⟩
  · have h2 : deregisterMem (.ok k) mem = (204, (mem.Remove k).1) := rfl
    rw [h2, hm]
  · simp only [deregisterFile, hrem]

/-- Witness for C9: a store holding only name `A`, deregistering the
unknown name `B`. -/
theorem c9_witness :
    (RegStorageMemory.Remove ⟨[(['A'], ⟨['u']⟩)]⟩ ['B']).2 = none ∧
    (RegStorageMemory.Remove ⟨[(['A'], ⟨['u']⟩)]⟩ ['B']).1 =
      ⟨[(['A'], ⟨['u']⟩)]⟩ ∧
    deregisterMem (.ok ['B']) ⟨[(['A'], ⟨['u']⟩)]⟩ =
      (204, ⟨[(['A'], ⟨['u']⟩)]⟩) ∧
    ∃ st2, RegStorageFile.Remove ⟨['A', '=', 'u', '\n']⟩ ['B'] = .ok st2 ∧
      st2.All = .ok [(['A'], ⟨['u']⟩)] ∧
      deregisterFile (.ok ['B']) ⟨['A', '=', 'u', '\n']⟩ = (204, st2) :=
  c9_remove_idempotent ⟨[(['A'], ⟨['u']⟩)]⟩ ⟨['A', '=', 'u', '\n']⟩
    [(['A'], ⟨['u']⟩)] ['B'] rfl (by decide) (by decide)
